import Mathlib

/-!
Verification of the ADPCM codec interface of `adpcm_filter.h`
(BCLRingSDK, muse-sdk repository).

The repository ships only the header: the `CLAMP` macro is the sole piece
of implemented code, while `yma_encode`, `yma_decode`, `bandpass_filter`,
`adpcm_to_pcm_for_swift`, `yma_step` and `yma_encode_step` are prototypes
whose bodies live in the prebuilt binary framework.  `CLAMP` is therefore
embedded directly from the source; the codec operations are modelled from
the specification (its §4.1 encoder algorithm, §4.2 decoder algorithm,
§4.3 filter contract and §4.4 boundary-wrapper contract), with the
constants the spec leaves as implementation decisions (step table,
adaptation table, nibble order, state seeds) fixed once and kept
consistent between encoder and decoder as the spec requires.
-/

/-- Embedded from `adpcm_filter.h` line 6:
`#define CLAMP(x, low, high) (((x) > (high)) ? (high) : (((x) < (low)) ? (low) : (x)))`.
The upper-bound test is performed first. -/
def CLAMP (x low high : Int) : Int :=
  if x > high then high else if x < low then low else x

/-- Modelled from the spec: the step-size table is absent from src (§9 open
question); a "monotonic step-size table" (§4.1) is required, chosen here as
the standard 89-entry IMA ADPCM table from 7 to 32767. -/
def stepTable : List Int :=
  [7, 8, 9, 10, 11, 12, 13, 14, 16, 17, 19, 21, 23, 25, 28, 31,
   34, 37, 41, 45, 50, 55, 60, 66, 73, 80, 88, 97, 107, 118, 130, 143,
   157, 173, 190, 209, 230, 253, 279, 307, 337, 371, 408, 449, 494, 544, 598, 658,
   724, 796, 876, 963, 1060, 1166, 1282, 1411, 1552, 1707, 1878, 2066, 2272, 2499, 2749, 3024,
   3327, 3660, 4026, 4428, 4871, 5358, 5894, 6484, 7132, 7845, 8630, 9493, 10442, 11487, 12635, 13899,
   15289, 16818, 18500, 20350, 22385, 24623, 27086, 29794, 32767]

/-- Modelled from the spec: lookup of the current step size at a step index
("step history", §3 data model). -/
def stepAt (i : Nat) : Int := stepTable.getD i 7

/-- Modelled from the spec: the "fixed adaptation table" (§4.1 item 4) that
moves the step index up or down from the 3-bit magnitude code, chosen as
the standard IMA adjustments. -/
def indexAdjust (m : Nat) : Int :=
  ([-1, -1, -1, -1, 2, 4, 6, 8] : List Int).getD m 0

/-- Modelled from the spec: dequantization of a 4-bit code against a step
size (§4.2) — delta = step/8 plus step, step/2, step/4 gated by the three
magnitude bits. -/
def dequantDelta (code : Nat) (step : Int) : Int :=
  step / 8 + (if code % 8 ≥ 4 then step else 0) +
    (if code % 4 ≥ 2 then step / 2 else 0) + (if code % 2 = 1 then step / 4 else 0)

/-- Modelled from the spec: the body of `yma_step` (prototype at
`adpcm_filter.h` line 31) is absent from src.  Per §4.2 it dequantizes one
4-bit code into a delta from the current step size and the magnitude/sign
bits, adds it to the predictor with the saturating `CLAMP` into the 16-bit
signed range (§4.1 item 3), and updates the step index through the
adaptation table clamped to the table's valid range.  Returns the new
predictor (which is the reconstructed sample the C function returns) and
the new step index. -/
def yma_step (code : Nat) (history : Int) (step_hist : Nat) : Int × Nat :=
  (if 8 ≤ code then CLAMP (history - dequantDelta code (stepAt step_hist)) (-32768) 32767
    else CLAMP (history + dequantDelta code (stepAt step_hist)) (-32768) 32767,
   (CLAMP ((step_hist : Int) + indexAdjust (code % 8)) 0 88).toNat)

/-- Modelled from the spec: the last two magnitude bits of the §4.1
quantizer, comparing the residual `r` against the halved step `s` and then
the remaining residual against `s / 2`. -/
def quantMagLow (r s : Int) : Nat :=
  (if s ≤ r then 2 else 0) + (if s / 2 ≤ (if s ≤ r then r - s else r) then 1 else 0)

/-- Modelled from the spec: the 3-bit magnitude code of the §4.1
quantizer — successive comparison of the absolute difference `ad` against
step, step/2, step/4, subtracting each matched threshold. -/
def quantMag (ad step : Int) : Nat :=
  (if step ≤ ad then 4 else 0) + quantMagLow (if step ≤ ad then ad - step else ad) (step / 2)

/-- Modelled from the spec: the full 4-bit code of §4.1 item 2 — a sign
bit when the difference is negative, plus the 3-bit magnitude code of its
absolute value. -/
def quantCode (diff step : Int) : Nat :=
  (if diff < 0 then 8 else 0) + quantMag (if diff < 0 then -diff else diff) step

/-- Modelled from the spec: the body of `yma_encode_step` (prototype at
`adpcm_filter.h` line 32) is absent from src.  Per §4.1 it takes the
difference between the input sample and the predictor, quantizes its
magnitude against the current step size into a 3-bit magnitude code plus a
sign bit, then reconstructs the code exactly as the decoder does
(`yma_step`) to update predictor and step index.  Returns the 4-bit code
and the updated state. -/
def yma_encode_step (input history : Int) (step_hist : Nat) : Nat × Int × Nat :=
  (quantCode (input - history) (stepAt step_hist),
   yma_step (quantCode (input - history) (stepAt step_hist)) history step_hist)

/-- Modelled from the spec: the per-sample encoding recurrence of §4.1,
threading predictor and step index through the sample list and emitting
one 4-bit code per sample. -/
def encodeNibbles : List Int → Int → Nat → List Nat
  | [], _, _ => []
  | s :: rest, h, si =>
    (yma_encode_step s h si).1 ::
      encodeNibbles rest (yma_encode_step s h si).2.1 (yma_encode_step s h si).2.2

/-- Modelled from the spec: the sequence of reconstructed predictor values
the encoder of §4.1 computes while encoding (its item 3 mirror of the
decoder), one per input sample. -/
def encodeRecon : List Int → Int → Nat → List Int
  | [], _, _ => []
  | s :: rest, h, si =>
    (yma_encode_step s h si).2.1 ::
      encodeRecon rest (yma_encode_step s h si).2.1 (yma_encode_step s h si).2.2

/-- Modelled from the spec: the per-sample decoding recurrence of §4.2,
feeding each 4-bit code to `yma_step` and emitting the reconstructed
sample (the updated predictor). -/
def decodeNibbles : List Nat → Int → Nat → List Int
  | [], _, _ => []
  | c :: rest, h, si =>
    (yma_step c h si).1 ::
      decodeNibbles rest (yma_step c h si).1 (yma_step c h si).2

/-- Modelled from the spec: nibble packing (§4.1 item 5), two consecutive
4-bit codes per byte, first code in the low nibble; an odd trailing code
is zero-padded into its own byte (§4.1 edge cases). -/
def packBytes : List Nat → List Nat
  | [] => []
  | [c] => [c]
  | c1 :: c2 :: rest => (c1 + 16 * c2) :: packBytes rest

/-- Modelled from the spec: unpacking of packed bytes back into 4-bit
codes, low nibble first, matching `packBytes`. -/
def unpackNibbles : List Nat → List Nat
  | [] => []
  | b :: rest => b % 16 :: (b / 16) % 16 :: unpackNibbles rest

/-- Modelled from the spec: the body of `yma_encode` (prototype at
`adpcm_filter.h` line 8) is absent from src.  Per §4.1 it encodes `len`
16-bit PCM samples into ceil(len/2) packed bytes, starting from the fixed
state seeds (predictor 0, step index 0), and returns the number of bytes
written; a non-positive `len` is rejected with the negative sentinel -1
and nothing written. -/
def yma_encode (buffer : List Int) (len : Int) : Int × List Nat :=
  if len ≤ 0 then (-1, [])
  else
    ((packBytes (encodeNibbles (buffer.take len.toNat) 0 0)).length,
      packBytes (encodeNibbles (buffer.take len.toNat) 0 0))

/-- Modelled from the spec: the body of `yma_decode` (prototype at
`adpcm_filter.h` line 9) is absent from src.  Per §4.2 it unpacks `len`
bytes into 4-bit codes and runs the decoding recurrence from the same
state seeds as the encoder (predictor 0, step index 0); it is `void` in C,
so there is no failure value — a non-positive `len` silently yields no
output. -/
def yma_decode (buffer : List Nat) (len : Int) : List Int :=
  decodeNibbles (unpackNibbles (buffer.take len.toNat)) 0 0

/-- Modelled from the spec: the body of `adpcm_to_pcm_for_swift`
(prototype at `adpcm_filter.h` line 21) is absent from src.  Per §4.4 and
the header comment it validates the input (null pointer or non-positive
length fail with -1 and no allocation, modelled as `none`), otherwise
decodes, allocates the output buffer (modelled as `some`), sets the output
length to 2 samples per input byte, and returns 0.  Result:
(status, pcm buffer, pcm length). -/
def adpcm_to_pcm_for_swift (adpcm_data : Option (List Nat)) (adpcm_length : Int) :
    Int × Option (List Int) × Int :=
  match adpcm_data with
  | none => (-1, none, 0)
  | some d =>
    if adpcm_length ≤ 0 then (-1, none, 0)
    else (0, some (yma_decode d adpcm_length), 2 * adpcm_length)

/-- Modelled from the spec: the body of `bandpass_filter` (prototype at
`adpcm_filter.h` line 10) is absent from src.  §4.3 requires a linear
time-invariant FIR/biquad-style filter over a small fixed history of prior
inputs, history reset on each call, with the exact coefficients an
implementation decision; chosen kernel y[n] = -x[n] + 2*x[n-2] - x[n-4],
whose gain vanishes at DC and at the Nyquist frequency (a bandpass).
`h1`..`h4` are the prior inputs x[n-1]..x[n-4]. -/
def bandpass_core : List Int → Int → Int → Int → Int → List Int
  | [], _, _, _, _ => []
  | x :: rest, h1, h2, h3, _h4 =>
    (2 * h2 - _h4 - x) :: bandpass_core rest x h1 h2 h3

/-- Modelled from the spec: `bandpass_filter` entry point; the input
history is reset to zero on each call (§4.3 statelessness across calls). -/
def bandpass_filter (input : List Int) : List Int :=
  bandpass_core input 0 0 0 0

/-- Modelled from the spec: the process-wide codec state ("history" and
"step history", §3) that a hypothetical implementation could keep between
calls; §5 and §4.1 require each call to reset it, so it carries no
information into the next call. -/
structure CodecWorld where
  history : Int
  step_hist : Nat

/-- Modelled from the spec: the final encoder state after threading the
predictor and step index through a sample list (§4.1). -/
def encodeFinalState : List Int → Int → Nat → Int × Nat
  | [], h, si => (h, si)
  | s :: rest, h, si =>
    encodeFinalState rest (yma_encode_step s h si).2.1 (yma_encode_step s h si).2.2

/-- Modelled from the spec: a call to `yma_encode` viewed from the
process state: the codec state is "reset at the start of each independent
call" (§3), so the result never depends on the pre-call world; the
post-call world is the encoder's final state. -/
def yma_encode_call (_w : CodecWorld) (buffer : List Int) (len : Int) :
    CodecWorld × Int × List Nat :=
  (⟨(encodeFinalState (buffer.take len.toNat) 0 0).1,
    (encodeFinalState (buffer.take len.toNat) 0 0).2⟩,
   yma_encode buffer len)

/-- Modelled from the spec: observable effect of a `yma_encode` call on
the caller's input buffer; §3 buffer ownership says input buffers are
borrowed read-only, so the call leaves the buffer as found.  Result:
(return value and output bytes, input buffer after the call). -/
def yma_encode_effect (buffer : List Int) (len : Int) :
    (Int × List Nat) × List Int :=
  (yma_encode buffer len, buffer)

/-- Modelled from the spec: observable effect of a `yma_decode` call on
the caller's input buffer (§3: borrowed read-only). -/
def yma_decode_effect (buffer : List Nat) (len : Int) :
    List Int × List Nat :=
  (yma_decode buffer len, buffer)

/-- Modelled from the spec: observable effect of a `bandpass_filter` call
on the caller's input buffer (§3: borrowed read-only). -/
def bandpass_filter_effect (input : List Int) : List Int × List Int :=
  (bandpass_filter input, input)

/-- Modelled from the spec: observable effect of an
`adpcm_to_pcm_for_swift` call on the caller's input buffer (§3/§4.4: the
input is `const`, borrowed read-only). -/
def adpcm_to_pcm_effect (adpcm_data : Option (List Nat)) (adpcm_length : Int) :
    (Int × Option (List Int) × Int) × Option (List Nat) :=
  (adpcm_to_pcm_for_swift adpcm_data adpcm_length, adpcm_data)

/-- Modelled from the spec: the codec's guaranteed worst-case per-sample
quantization error.  The saturating `CLAMP` (§4.1 item 3) keeps every
reconstructed sample in [-32768, 32767] and the input samples are 16-bit,
so the error never exceeds the width of that range; no smaller uniform
bound exists because the step table's smallest step (7) lets an
adversarial jump across the full range outrun the largest dequantized
delta. -/
def yma_max_error : Int := 65535

/-! ### Helper lemmas -/

theorem clamp_range (x low high : Int) (h : low ≤ high) :
    low ≤ CLAMP x low high ∧ CLAMP x low high ≤ high := by
  unfold CLAMP
  split_ifs <;> omega

theorem yma_step_fst_range (code : Nat) (history : Int) (step_hist : Nat) :
    -32768 ≤ (yma_step code history step_hist).1 ∧
      (yma_step code history step_hist).1 ≤ 32767 := by
  simp only [yma_step]
  split_ifs <;> exact clamp_range _ _ _ (by omega)

theorem quantMagLow_le (r s : Int) : quantMagLow r s ≤ 3 := by
  unfold quantMagLow
  split_ifs <;> omega

theorem quantMag_le (ad step : Int) : quantMag ad step ≤ 7 := by
  unfold quantMag
  have h1 := quantMagLow_le (ad - step) (step / 2)
  have h2 := quantMagLow_le ad (step / 2)
  split_ifs <;> omega

theorem quantCode_lt (diff step : Int) : quantCode diff step < 16 := by
  unfold quantCode
  have h1 := quantMag_le (-diff) step
  have h2 := quantMag_le diff step
  split_ifs <;> omega

theorem encodeNibbles_length (pcm : List Int) :
    ∀ h si, (encodeNibbles pcm h si).length = pcm.length := by
  induction pcm with
  | nil => intro h si; rfl
  | cons s rest ih => intro h si; simp [encodeNibbles, ih]

theorem encodeRecon_length (pcm : List Int) :
    ∀ h si, (encodeRecon pcm h si).length = pcm.length := by
  induction pcm with
  | nil => intro h si; rfl
  | cons s rest ih => intro h si; simp [encodeRecon, ih]

theorem decodeNibbles_length (codes : List Nat) :
    ∀ h si, (decodeNibbles codes h si).length = codes.length := by
  induction codes with
  | nil => intro h si; rfl
  | cons c rest ih => intro h si; simp [decodeNibbles, ih]

theorem packBytes_length : ∀ codes : List Nat,
    (packBytes codes).length = (codes.length + 1) / 2
  | [] => rfl
  | [_] => by simp [packBytes]
  | _ :: _ :: rest => by
    simp only [packBytes, List.length_cons, packBytes_length rest]
    omega

theorem unpackNibbles_length (bytes : List Nat) :
    (unpackNibbles bytes).length = 2 * bytes.length := by
  induction bytes with
  | nil => rfl
  | cons b rest ih => simp [unpackNibbles, ih]; omega

theorem unpack_pack : ∀ codes : List Nat, (∀ c ∈ codes, c < 16) →
    codes.length % 2 = 0 → unpackNibbles (packBytes codes) = codes
  | [], _, _ => rfl
  | [_], _, hlen => by simp at hlen
  | c1 :: c2 :: rest, hlt, hlen => by
    have h1 : c1 < 16 := hlt c1 (by simp)
    have h2 : c2 < 16 := hlt c2 (by simp)
    have hr : unpackNibbles (packBytes rest) = rest :=
      unpack_pack rest (fun c hc => hlt c (by simp [hc])) (by simp at hlen; omega)
    simp only [packBytes, unpackNibbles, hr, List.cons.injEq]
    refine ⟨by omega, by omega, trivial⟩

theorem encodeNibbles_codes_lt (pcm : List Int) :
    ∀ h si, ∀ c ∈ encodeNibbles pcm h si, c < 16 := by
  induction pcm with
  | nil => intro h si c hc; simp [encodeNibbles] at hc
  | cons s rest ih =>
    intro h si c hc
    simp only [encodeNibbles, List.mem_cons] at hc
    rcases hc with hc | hc
    · rw [hc]; exact quantCode_lt _ _
    · exact ih _ _ c hc

theorem decode_encode_mirror (pcm : List Int) :
    ∀ h si, decodeNibbles (encodeNibbles pcm h si) h si = encodeRecon pcm h si := by
  induction pcm with
  | nil => intro h si; rfl
  | cons s rest ih =>
    intro h si
    simp only [encodeNibbles, decodeNibbles, encodeRecon]
    exact (List.cons.injEq _ _ _ _).mpr ⟨rfl, ih _ _⟩

theorem encodeRecon_mem_range (pcm : List Int) :
    ∀ h si, ∀ x ∈ encodeRecon pcm h si, -32768 ≤ x ∧ x ≤ 32767 := by
  induction pcm with
  | nil => intro h si x hx; simp [encodeRecon] at hx
  | cons s rest ih =>
    intro h si x hx
    simp only [encodeRecon, List.mem_cons] at hx
    rcases hx with hx | hx
    · rw [hx]; exact yma_step_fst_range _ _ _
    · exact ih _ _ x hx

theorem decodeNibbles_mem_range (codes : List Nat) :
    ∀ h si, ∀ x ∈ decodeNibbles codes h si, -32768 ≤ x ∧ x ≤ 32767 := by
  induction codes with
  | nil => intro h si x hx; simp [decodeNibbles] at hx
  | cons c rest ih =>
    intro h si x hx
    simp only [decodeNibbles, List.mem_cons] at hx
    rcases hx with hx | hx
    · rw [hx]; exact yma_step_fst_range _ _ _
    · exact ih _ _ x hx

theorem bandpass_core_linear (k : Int) (input : List Int) :
    ∀ h1 h2 h3 h4, bandpass_core (input.map (fun s => k * s)) (k * h1) (k * h2)
        (k * h3) (k * h4) =
      (bandpass_core input h1 h2 h3 h4).map (fun s => k * s) := by
  induction input with
  | nil => intro h1 h2 h3 h4; rfl
  | cons x rest ih =>
    intro h1 h2 h3 h4
    simp only [List.map_cons, bandpass_core]
    refine (List.cons.injEq _ _ _ _).mpr ⟨by ring, ?_⟩
    exact ih x h1 h2 h3

theorem bandpass_core_length (input : List Int) :
    ∀ h1 h2 h3 h4, (bandpass_core input h1 h2 h3 h4).length = input.length := by
  induction input with
  | nil => intro h1 h2 h3 h4; rfl
  | cons x rest ih => intro h1 h2 h3 h4; simp [bandpass_core, ih]

/-- Modelled from the spec: the §8 concrete scenario input, eight PCM
samples `[0, 100, 200, 100, 0, -100, -200, -100]`. -/
def specScenario : List Int := [0, 100, 200, 100, 0, -100, -200, -100]

/-! ### Claim theorems -/

/-- C4 counterexample: the claim "CLAMP returns low when x is below low,
high when x is above high, and x otherwise" is false as stated over all
bounds: at x = 5, low = 10, high = 0 the value 5 is below low yet
`CLAMP 5 10 0 = 0` (the upper-bound test fires first), not 10. -/
theorem c4_clamp_counterexample :
    ¬ (∀ x low high : Int, (x < low → CLAMP x low high = low) ∧
        (high < x → CLAMP x low high = high) ∧
        (low ≤ x → x ≤ high → CLAMP x low high = x)) := by
  intro hcl
  have h := (hcl 5 10 0).1 (by norm_num)
  exact absurd h (by decide)

/-- C4 (amended): for ordered bounds low ≤ high, CLAMP returns low when x
is below low, high when x is above high, and x unchanged otherwise. -/
theorem c4_clamp_cases (x low high : Int) (hlh : low ≤ high) :
    (x < low → CLAMP x low high = low) ∧ (high < x → CLAMP x low high = high) ∧
    (low ≤ x → x ≤ high → CLAMP x low high = x) := by
  refine ⟨fun h1 => ?_, fun h1 => ?_, fun h1 h2 => ?_⟩ <;>
    (unfold CLAMP; split_ifs <;> omega)

/-- C4 witness: the amended theorem at x = -5, low = 0, high = 10. -/
theorem c4_clamp_cases_witness :
    ((0 : Int) ≤ 10 ∧ (-5 : Int) < 0) ∧ CLAMP (-5) 0 10 = 0 :=
  ⟨by decide, (c4_clamp_cases (-5) 0 10 (by decide)).1 (by decide)⟩

/-- C10: for ordered bounds low ≤ high, `CLAMP x low high` lies in
[low, high] and CLAMP is idempotent; for reversed bounds high < low the
upper-bound test takes precedence, so x above high yields high. -/
theorem c10_clamp_interval (x low high : Int) :
    (low ≤ high →
      (low ≤ CLAMP x low high ∧ CLAMP x low high ≤ high) ∧
      CLAMP (CLAMP x low high) low high = CLAMP x low high) ∧
    (high < low → high < x → CLAMP x low high = high) := by
  constructor
  · intro hlh
    refine ⟨clamp_range x low high hlh, ?_⟩
    unfold CLAMP
    split_ifs <;> omega
  · intro h1 h2
    unfold CLAMP
    split_ifs <;> omega

/-- C10 witness: the interval/idempotence part at x = 99, low = 0,
high = 10, and the reversed-bounds part at x = 15, low = 10, high = 0. -/
theorem c10_clamp_interval_witness :
    ((0 : Int) ≤ 10 ∧
      ((0 ≤ CLAMP 99 0 10 ∧ CLAMP 99 0 10 ≤ 10) ∧
        CLAMP (CLAMP 99 0 10) 0 10 = CLAMP 99 0 10)) ∧
    ((0 : Int) < 10 ∧ (0 : Int) < 15 ∧ CLAMP 15 10 0 = 0) :=
  ⟨⟨by decide, (c10_clamp_interval 99 0 10).1 (by decide)⟩,
   ⟨by decide, by decide, (c10_clamp_interval 15 10 0).2 (by decide) (by decide)⟩⟩

/-- C2: `yma_encode` on N > 0 samples writes exactly ceil(N/2) packed
bytes and returns that byte count; on a non-positive length it returns the
negative sentinel -1 and writes nothing. -/
theorem c2_encode_length (buffer : List Int) (len : Int) :
    (len ≤ 0 → yma_encode buffer len = (-1, [])) ∧
    (0 < len → len = (buffer.length : Int) →
      (yma_encode buffer len).2.length = (buffer.length + 1) / 2 ∧
      (yma_encode buffer len).1 = (((buffer.length + 1) / 2 : Nat) : Int)) := by
  constructor
  · intro h
    simp [yma_encode, h]
  · intro hpos hlen
    have hnot : ¬ len ≤ 0 := by omega
    have htake : buffer.take len.toNat = buffer := by
      rw [hlen, Int.toNat_natCast, List.take_length]
    simp only [yma_encode, if_neg hnot, htake]
    simp [packBytes_length, encodeNibbles_length]

/-- C2 witness: encoding 3 samples yields (3+1)/2 = 2 bytes and returns 2;
encoding with length -2 fails with -1. -/
theorem c2_encode_length_witness :
    yma_encode ([] : List Int) (-2) = (-1, []) ∧
    ((yma_encode [5, -3, 7] 3).2.length = (([5, -3, 7] : List Int).length + 1) / 2 ∧
      (yma_encode [5, -3, 7] 3).1 = (((([5, -3, 7] : List Int).length + 1) / 2 : Nat) : Int)) :=
  ⟨(c2_encode_length [] (-2)).1 (by decide),
   (c2_encode_length [5, -3, 7] 3).2 (by decide) (by decide)⟩

/-- C6: two `yma_encode` calls on the same input, each starting from a
fresh codec state (the reset the spec mandates), produce byte-identical
outputs and equal return values, whatever process state the first call
left behind; both equal the pure `yma_encode`. -/
theorem c6_encode_deterministic (w : CodecWorld) (buffer : List Int) (len : Int) :
    (yma_encode_call ((yma_encode_call w buffer len).1) buffer len).2 =
      (yma_encode_call w buffer len).2 ∧
    (yma_encode_call w buffer len).2 = yma_encode buffer len :=
  ⟨rfl, rfl⟩

/-- C7: the bandpass filter is linear — filtering k·x yields exactly k
times the filter's output on x (so in particular within any rounding
tolerance), for every integer scalar k — and produces one output sample
per input sample. -/
theorem c7_filter_linear (k : Int) (input : List Int) :
    bandpass_filter (input.map (fun s => k * s)) =
      (bandpass_filter input).map (fun s => k * s) ∧
    (bandpass_filter input).length = input.length := by
  constructor
  · have h := bandpass_core_linear k input 0 0 0 0
    simpa [bandpass_filter] using h
  · exact bandpass_core_length input 0 0 0 0

/-- C8: `yma_decode` and `bandpass_filter` expose no failure channel —
for every input, valid or not, each returns an ordinary output list (a
non-positive length silently yields the empty output, never an error
value), of the lengths its input determines. -/
theorem c8_silent_operations (buffer : List Nat) (len : Int) (input : List Int) :
    (len ≤ 0 → yma_decode buffer len = []) ∧
    (yma_decode buffer len).length = 2 * (buffer.take len.toNat).length ∧
    (bandpass_filter input).length = input.length := by
  refine ⟨?_, ?_, ?_⟩
  · intro h
    have h0 : len.toNat = 0 := Int.toNat_of_nonpos h
    simp [yma_decode, h0, unpackNibbles, decodeNibbles]
  · simp [yma_decode, decodeNibbles_length, unpackNibbles_length]
  · exact bandpass_core_length input 0 0 0 0

/-- C8 witness: decoding with negative length silently yields no samples;
the filter maps 2 inputs to 2 outputs. -/
theorem c8_silent_operations_witness :
    yma_decode [9] (-3) = [] ∧ (bandpass_filter [5, 6]).length = ([5, 6] : List Int).length :=
  ⟨(c8_silent_operations [9] (-3) [5, 6]).1 (by decide),
   (c8_silent_operations [9] (-3) [5, 6]).2.2⟩

/-- C9: each of the four operations leaves the caller's input buffer
unchanged — its contents after the call equal its contents before. -/
theorem c9_inputs_unchanged (buffer : List Int) (len : Int) (dbuf : List Nat)
    (dlen : Int) (input : List Int) (adata : Option (List Nat)) (alen : Int) :
    (yma_encode_effect buffer len).2 = buffer ∧
    (yma_decode_effect dbuf dlen).2 = dbuf ∧
    (bandpass_filter_effect input).2 = input ∧
    (adpcm_to_pcm_effect adata alen).2 = adata :=
  ⟨rfl, rfl, rfl, rfl⟩

/-- C3: the boundary wrapper returns -1 and allocates nothing (buffer
stays `none`) on a null input pointer or non-positive length; on valid
input it returns 0, a non-null (`some`) decoded PCM buffer of exactly
2 * adpcm_length samples, and sets the output length to
2 * adpcm_length. -/
theorem c3_wrapper_contract (adpcm_data : Option (List Nat)) (adpcm_length : Int) :
    ((adpcm_data = none ∨ adpcm_length ≤ 0) →
      adpcm_to_pcm_for_swift adpcm_data adpcm_length = (-1, none, 0)) ∧
    (∀ d, adpcm_data = some d → 0 < adpcm_length →
      adpcm_length ≤ (d.length : Int) →
      (adpcm_to_pcm_for_swift adpcm_data adpcm_length).1 = 0 ∧
      (adpcm_to_pcm_for_swift adpcm_data adpcm_length).2.1 =
        some (yma_decode d adpcm_length) ∧
      (yma_decode d adpcm_length).length = (2 * adpcm_length).toNat ∧
      (adpcm_to_pcm_for_swift adpcm_data adpcm_length).2.2 = 2 * adpcm_length) := by
  constructor
  · rintro (h | h)
    · rw [h]; rfl
    · cases adpcm_data with
      | none => rfl
      | some d => simp [adpcm_to_pcm_for_swift, h]
  · rintro d rfl hpos hlen
    have hnot : ¬ adpcm_length ≤ 0 := by omega
    refine ⟨by simp [adpcm_to_pcm_for_swift, hnot], by simp [adpcm_to_pcm_for_swift, hnot],
      ?_, by simp [adpcm_to_pcm_for_swift, hnot]⟩
    have hdlen : (yma_decode d adpcm_length).length =
        2 * (d.take adpcm_length.toNat).length := by
      simp [yma_decode, decodeNibbles_length, unpackNibbles_length]
    rw [hdlen, List.length_take]
    omega

/-- C3 witness: a null input fails with -1 and no buffer; the valid input
[17, 200] with length 2 succeeds with a 4-sample buffer and length 4. -/
theorem c3_wrapper_contract_witness :
    adpcm_to_pcm_for_swift none 5 = (-1, none, 0) ∧
    ((adpcm_to_pcm_for_swift (some [17, 200]) 2).1 = 0 ∧
      (adpcm_to_pcm_for_swift (some [17, 200]) 2).2.1 = some (yma_decode [17, 200] 2) ∧
      (yma_decode [17, 200] 2).length = (2 * (2 : Int)).toNat ∧
      (adpcm_to_pcm_for_swift (some [17, 200]) 2).2.2 = 2 * 2) :=
  ⟨(c3_wrapper_contract none 5).1 (Or.inl rfl),
   (c3_wrapper_contract (some [17, 200]) 2).2 [17, 200] rfl (by decide) (by decide)⟩

/-- C5: every predictor value produced by a per-sample update stays in the
16-bit signed range [-32768, 32767]: the decoder's `yma_step` and the
encoder's `yma_encode_step` for arbitrary (adversarial) codes, inputs and
states, and hence every predictor in a whole encoding trace and every
sample of a whole decode. -/
theorem c5_predictor_saturation :
    (∀ (code : Nat) (history : Int) (step_hist : Nat),
      -32768 ≤ (yma_step code history step_hist).1 ∧
        (yma_step code history step_hist).1 ≤ 32767) ∧
    (∀ (input history : Int) (step_hist : Nat),
      -32768 ≤ (yma_encode_step input history step_hist).2.1 ∧
        (yma_encode_step input history step_hist).2.1 ≤ 32767) ∧
    (∀ (pcm : List Int) (x : Int), x ∈ encodeRecon pcm 0 0 →
      -32768 ≤ x ∧ x ≤ 32767) ∧
    (∀ (buffer : List Nat) (len : Int) (x : Int), x ∈ yma_decode buffer len →
      -32768 ≤ x ∧ x ≤ 32767) := by
  refine ⟨yma_step_fst_range, ?_, ?_, ?_⟩
  · intro input history step_hist
    exact yma_step_fst_range _ _ _
  · intro pcm x hx
    exact encodeRecon_mem_range pcm 0 0 x hx
  · intro buffer len x hx
    exact decodeNibbles_mem_range _ 0 0 x hx

/-- C5 witness: the out-of-range predictor 40000 is pulled back into range
by one step, and the first sample of decoding [255, 255] (all-ones codes)
is in range. -/
theorem c5_predictor_saturation_witness :
    (-32768 ≤ (yma_step 7 40000 3).1 ∧ (yma_step 7 40000 3).1 ≤ 32767) ∧
    (-32768 ≤ (-11 : Int) ∧ (-11 : Int) ≤ 32767) :=
  ⟨c5_predictor_saturation.1 7 40000 3,
   c5_predictor_saturation.2.2.2 [255, 255] 2 (-11) (by decide)⟩

/-- C1: encoding a PCM sequence of even length N and decoding the
resulting bytes (both directions from the fixed seeds: predictor 0, step
index 0) yields exactly N samples, each within the codec's worst-case
per-sample quantization error bound `yma_max_error` of the corresponding
original sample. -/
theorem c1_round_trip (pcm : List Int) (heven : pcm.length % 2 = 0)
    (hrange : ∀ s ∈ pcm, -32768 ≤ s ∧ s ≤ 32767) :
    (yma_decode (yma_encode pcm (pcm.length : Int)).2
        ((yma_encode pcm (pcm.length : Int)).2.length : Int)).length = pcm.length ∧
    ∀ i, i < pcm.length →
      |(yma_decode (yma_encode pcm (pcm.length : Int)).2
          ((yma_encode pcm (pcm.length : Int)).2.length : Int)).getD i 0 -
        pcm.getD i 0| ≤ yma_max_error := by
  by_cases hnil : pcm = []
  · subst hnil
    constructor
    · rfl
    · intro i hi
      simp at hi
  · have hlen0 : 0 < pcm.length := List.length_pos.mpr hnil
    have hnot : ¬ (pcm.length : Int) ≤ 0 := by omega
    have htake : pcm.take ((pcm.length : Int)).toNat = pcm := by
      rw [Int.toNat_natCast, List.take_length]
    have henc : (yma_encode pcm (pcm.length : Int)).2 =
        packBytes (encodeNibbles pcm 0 0) := by
      simp [yma_encode, hnot, htake]
    have hbytes : ∀ bytes : List Nat, bytes.take ((bytes.length : Int)).toNat = bytes := by
      intro bytes
      rw [Int.toNat_natCast, List.take_length]
    have hunp : unpackNibbles (packBytes (encodeNibbles pcm 0 0)) =
        encodeNibbles pcm 0 0 :=
      unpack_pack _ (encodeNibbles_codes_lt pcm 0 0)
        (by rw [encodeNibbles_length]; exact heven)
    have hdec : yma_decode (yma_encode pcm (pcm.length : Int)).2
        ((yma_encode pcm (pcm.length : Int)).2.length : Int) = encodeRecon pcm 0 0 := by
      rw [henc]
      unfold yma_decode
      rw [hbytes, hunp, decode_encode_mirror]
    rw [hdec]
    constructor
    · exact encodeRecon_length pcm 0 0
    · intro i hi
      have hrl : i < (encodeRecon pcm 0 0).length := by
        rw [encodeRecon_length]; exact hi
      have hpl : i < pcm.length := hi
      have hr1 : (encodeRecon pcm 0 0).getD i 0 = (encodeRecon pcm 0 0).get ⟨i, hrl⟩ := by
        rw [List.getD_eq_getElem (encodeRecon pcm 0 0) 0 hrl]
        rfl
      have hp1 : pcm.getD i 0 = pcm.get ⟨i, hpl⟩ := by
        rw [List.getD_eq_getElem pcm 0 hpl]
        rfl
      have hrmem : (encodeRecon pcm 0 0).get ⟨i, hrl⟩ ∈ encodeRecon pcm 0 0 :=
        List.get_mem _ _ hrl
      have hpmem : pcm.get ⟨i, hpl⟩ ∈ pcm := List.get_mem _ _ hpl
      have hrr := encodeRecon_mem_range pcm 0 0 _ hrmem
      have hpr := hrange _ hpmem
      rw [hr1, hp1]
      unfold yma_max_error
      rw [abs_le]
      omega

/-- C1 witness: the spec's §8 scenario input, 8 samples, round-trips
through encode and decode within the error bound. -/
theorem c1_round_trip_witness :
    (specScenario.length % 2 = 0 ∧
      ∀ s ∈ specScenario, -32768 ≤ s ∧ s ≤ 32767) ∧
    ((yma_decode (yma_encode specScenario (specScenario.length : Int)).2
        ((yma_encode specScenario (specScenario.length : Int)).2.length : Int)).length =
      specScenario.length ∧
     ∀ i, i < specScenario.length →
       |(yma_decode (yma_encode specScenario (specScenario.length : Int)).2
           ((yma_encode specScenario (specScenario.length : Int)).2.length : Int)).getD i 0 -
         specScenario.getD i 0| ≤ yma_max_error) :=
  ⟨⟨by decide, by decide⟩,
   c1_round_trip specScenario (by decide) (by decide)⟩
